import Mathlib

/-!
Verification development for the llmstxt-generator crawl-to-artifact pipeline.

The JavaScript source is shallowly embedded here:
* strings are modelled as `List Char` (all relevant inputs are ASCII, where
  UTF-16 code units, code points and `Char` agree);
* the bounded-concurrency scheduler (`#runNext` / task-completion
  continuations) is modelled as a labelled transition system over an explicit
  scheduler state, with reachability from the initial `#runNext` call;
* the content chunker of `#processTask` is modelled as a cursor loop over
  positions, with the sentence-boundary search (`lastIndexOf` per marker,
  maximum of the candidate break points) transcribed from the source;
* per-task processing, task materialization and the pre-task exit decisions
  are modelled as pure functions over the relevant data and outcome oracles;
* the URL normalizer (`new URL`, `hash = ""`, `toString`, strip one trailing
  slash) is modelled over a faithful fragment of WHATWG URLs
  (`http`/`https`, plain lower-case host, percent-free path/query/fragment),
  on which the host `URL` class parses and serializes verbatim except that an
  empty path of a special scheme serializes as "/".
-/

namespace LlmsTxt

/-! ### Constants (src/unnamed/part_000, lines 21-22 and 453) -/

def MAX_CHUNK_SIZE : Nat := 120000

def CONTEXT_OVERLAP_SIZE : Nat := 5000

def breakWindow : Nat := 500

/-! ### URL normalizer (src/unnamed/part_000 `#normalizeUrl`, lines 142-154;
identical code in src/index.js lines 55-68 and src/src/crawler.js lines 9-22).

`parseUrl` models `new URL(urlString)` (no base URL) on a fragment of WHATWG
URLs: literal scheme `http://` or `https://`, a non-empty host made of
lower-case letters, digits, `-` and `.`, a path over lower-case letters,
digits, `/`, `-` and `_` (no dot segments, so the WHATWG path normalization
is the identity), and similar percent-free queries and fragments.  On this
fragment `new URL(s).toString()` returns `s` itself, except that an empty
path serializes as `/`.  Inputs outside the fragment are `none`, matching the
`catch` branch of the source for genuinely unparsable strings. -/

def lowerDigits : List Char := "abcdefghijklmnopqrstuvwxyz0123456789".toList

def hostChars : List Char := lowerDigits ++ ['-', '.']

def pathChars : List Char := lowerDigits ++ ['/', '-', '_']

def queryChars : List Char := lowerDigits ++ ['-', '_', '/', '=']

def hostOk (c : Char) : Bool := hostChars.contains c

def pathOk (c : Char) : Bool := pathChars.contains c

def queryOk (c : Char) : Bool := queryChars.contains c

def fragOk (c : Char) : Bool := queryOk c

structure Url where
  scheme : List Char
  host : List Char
  path : List Char
  query : Option (List Char)
  frag : Option (List Char)
deriving DecidableEq, Repr

def notHostStop (c : Char) : Bool := !(c = '/' || c = '?' || c = '#')

def notPathStop (c : Char) : Bool := !(c = '?' || c = '#')

def splitQueryFrag : List Char → Option (List Char) × Option (List Char)
  | '?' :: t =>
    (some (t.takeWhile fun c => !(c = '#')),
      match t.dropWhile (fun c => !(c = '#')) with
      | '#' :: f => some f
      | _ => none)
  | '#' :: f => (none, some f)
  | _ => (none, none)

def parseAfterScheme (scheme rest : List Char) : Option Url :=
  let host := rest.takeWhile notHostStop
  let r1 := rest.dropWhile notHostStop
  let path := r1.takeWhile notPathStop
  let r2 := r1.dropWhile notPathStop
  let qf := splitQueryFrag r2
  if !host.isEmpty && host.all hostOk && path.all pathOk &&
      (qf.1.all fun q => q.all queryOk) && (qf.2.all fun f => f.all fragOk) then
    some ⟨scheme, host, if path.isEmpty then ['/'] else path, qf.1, qf.2⟩
  else none

def parseUrl : List Char → Option Url
  | 'h' :: 't' :: 't' :: 'p' :: ':' :: '/' :: '/' :: rest =>
    parseAfterScheme ['h', 't', 't', 'p'] rest
  | 'h' :: 't' :: 't' :: 'p' :: 's' :: ':' :: '/' :: '/' :: rest =>
    parseAfterScheme ['h', 't', 't', 'p', 's'] rest
  | _ => none

def queryPart : Option (List Char) → List Char
  | some q => '?' :: q
  | none => []

def fragPart : Option (List Char) → List Char
  | some f => '#' :: f
  | none => []

def serializeUrl (u : Url) : List Char :=
  u.scheme ++ [':', '/', '/'] ++ u.host ++ u.path ++
    queryPart u.query ++ fragPart u.frag

/-- The `endsWith("/")`-guarded `slice(0, -1)` of the source. -/
def stripSlash (l : List Char) : List Char :=
  if l.getLast? = some '/' then l.dropLast else l

/-- `#normalizeUrl(urlString)` with no base URL: parse, clear the hash,
serialize, strip one trailing slash; return the input on parse failure. -/
def normalizeUrl (s : List Char) : List Char :=
  match parseUrl s with
  | none => s
  | some u => stripSlash (serializeUrl { u with frag := none })

/-- The shape invariant of every successfully parsed URL of the modelled
fragment. -/
def ValidUrl (u : Url) : Prop :=
  (u.scheme = "http".toList ∨ u.scheme = "https".toList) ∧
    u.host ≠ [] ∧ u.host.all hostOk = true ∧
    u.path ≠ [] ∧ u.path.head? = some '/' ∧ u.path.all pathOk = true ∧
    (∀ q ∈ u.query, q.all queryOk = true) ∧ (∀ f ∈ u.frag, f.all fragOk = true)

/-- Resolving a path-absolute relative reference (`/...` but not `//...`)
against a parsed base, as `new URL(link, base)` does: scheme and host come
from the base, path, query and fragment from the reference. -/
def parseRel (scheme host rel : List Char) : Option Url :=
  let path := rel.takeWhile notPathStop
  let r2 := rel.dropWhile notPathStop
  let qf := splitQueryFrag r2
  if path.all pathOk && (qf.1.all fun q => q.all queryOk) &&
      (qf.2.all fun f => f.all fragOk) then
    some ⟨scheme, host, if path.isEmpty then ['/'] else path, qf.1, qf.2⟩
  else none

/-- `new URL(urlString, baseUrl)`: per WHATWG the base is parsed first, so
an unparsable base throws even when the input is an absolute URL; with a
parsable base, an absolute input is parsed ignoring the base, a
`/`-prefixed (but not `//`-prefixed) input resolves against the base's
scheme and host, and other relative forms are outside the modelled
fragment. -/
def parseUrlWithBase (s : List Char) : Option (List Char) → Option Url
  | none => parseUrl s
  | some b =>
    match parseUrl b with
    | none => none
    | some ub =>
      match parseUrl s with
      | some u => some u
      | none =>
        match s with
        | '/' :: '/' :: _ => none
        | '/' :: rest => parseRel ub.scheme ub.host ('/' :: rest)
        | _ => none

/-- `#normalizeUrl(urlString, baseUrl)` with both arguments, as called at
part_000 line 300 (`this.#normalizeUrl(link, currentUrl)`): parse against
the optional base, clear the hash, serialize, strip one trailing slash;
return the input on parse failure.  With no base it agrees with
`normalizeUrl` definitionally. -/
def normalizeUrlWithBase (s : List Char) (base : Option (List Char)) :
    List Char :=
  match parseUrlWithBase s base with
  | none => s
  | some u => stripSlash (serializeUrl { u with frag := none })

/-! ### Content chunker (src/unnamed/part_000 `#processTask`, lines 451-472;
same loop in src/index.js lines 606-644).

The loop advances `currentIndex`; each iteration computes
`end = min(currentIndex + MAX_CHUNK_SIZE, length)`, and if `end` is not the
end of the input looks for sentence-boundary markers: for each marker it takes
`lastIndexOf(marker, end - 1)` and, when that occurrence starts at or after
`searchStart = max(currentIndex, end - breakWindow)`, offers
`occurrence + marker.length` as a candidate; `end` becomes the maximum
candidate when one exists and exceeds `currentIndex`.  The chunk is
`substring(currentIndex, end)` and the cursor moves to `end`. -/

def sentenceEndings : List (List Char) :=
  [['.', ' '], ['.', '\n'], ['!', ' '], ['!', '\n'], ['?', ' '], ['?', '\n'], ['\n']]

/-- `s.lastIndexOf(pat, pos)`: the largest index `i ≤ pos` at which `pat`
occurs in `s` (JavaScript returns `-1`, modelled as `none`, when there is
no such occurrence). -/
def lastIndexOfLe (s pat : List Char) (pos : Nat) : Option Nat :=
  ((List.range (pos + 1)).filter fun i => pat.isPrefixOf (s.drop i)).getLast?

/-- The `for (const ending of endings)` loop body of the source: accumulate
the maximum `pt + marker.length` over markers whose last occurrence at or
before `pos` starts at or after `searchStart`; `none` models the initial
`-1` of `bestBreak`. -/
def bestBreakFold (s : List Char) (searchStart pos : Nat) :
    List (List Char) → Option Nat → Option Nat
  | [], acc => acc
  | pat :: rest, acc =>
    bestBreakFold s searchStart pos rest
      (match lastIndexOfLe s pat pos with
        | some pt =>
          if searchStart ≤ pt then
            match acc with
            | some b => some (max b (pt + pat.length))
            | none => some (pt + pat.length)
          else acc
        | none => acc)

/-- The `bestBreak` value of one loop iteration with right edge `e`:
`searchStart = max(currentIndex, end - breakWindow)` and occurrences are
searched with `lastIndexOf(ending, end - 1)`. -/
def bestBreakAt (s : List Char) (cur e : Nat) : Option Nat :=
  bestBreakFold s (max cur (e - breakWindow)) (e - 1) sentenceEndings none

/-- The value of `end` after one iteration of the chunking loop at cursor
`cur`. -/
def cutPos (s : List Char) (cur : Nat) : Nat :=
  if min (cur + MAX_CHUNK_SIZE) s.length < s.length then
    match bestBreakAt s cur (min (cur + MAX_CHUNK_SIZE) s.length) with
    | some b => if cur < b then b else min (cur + MAX_CHUNK_SIZE) s.length
    | none => min (cur + MAX_CHUNK_SIZE) s.length
  else min (cur + MAX_CHUNK_SIZE) s.length

/-- `s.substring(cur, e)` for `cur ≤ e`. -/
def sliceChunk (s : List Char) (cur e : Nat) : List Char :=
  (s.drop cur).take (e - cur)

/-- The chunking loop, fuelled so that it is structurally recursive; the
cursor strictly increases each iteration, so `s.length` units of fuel are
enough (see `chunksFrom_eq_of_lt`). -/
def chunkFromFuel (s : List Char) : Nat → Nat → List (List Char)
  | 0, _ => []
  | fuel + 1, cur =>
    if cur < s.length then
      sliceChunk s cur (cutPos s cur) :: chunkFromFuel s fuel (cutPos s cur)
    else []

/-- The chunk list built from cursor position `cur`. -/
def chunksFrom (s : List Char) (cur : Nat) : List (List Char) :=
  chunkFromFuel s (s.length - cur) cur

/-- The `chunks` array produced by the chunking loop of `#processTask`. -/
def chunkRun (s : List Char) : List (List Char) :=
  chunksFrom s 0

/-- Spec-side definition (for the refinement claim about cut positions):
the ends of all sentence-boundary-marker occurrences starting at position
`pt`. -/
def boundaryEndsAt (s : List Char) (pt : Nat) : List Nat :=
  sentenceEndings.filterMap fun pat =>
    if pat.isPrefixOf (s.drop pt) then some (pt + pat.length) else none

/-- Spec-side definition: the ends of all sentence-boundary-marker
occurrences starting within `[lo, hi]`. -/
def specBoundaryEnds (s : List Char) (lo hi : Nat) : List Nat :=
  ((List.range (hi + 1)).filter fun pt => lo ≤ pt).flatMap (boundaryEndsAt s)

/-- The maximum of a list of naturals, `none` on the empty list. -/
def natListMax : List Nat → Option Nat
  | [] => none
  | x :: xs =>
    match natListMax xs with
    | none => some x
    | some m => some (max x m)

/-- Spec-side definition, following the spec's split-algorithm wording: for
a non-final window starting at `cur`, the cut is the rightmost end of a
sentence-boundary marker found (i.e. starting) within the
`breakWindow`-character lookback window ending at the window's right edge
`cur + MAX_CHUNK_SIZE`; if no marker is found there, the cut is exactly
`cur + MAX_CHUNK_SIZE`. -/
def specCutPos (s : List Char) (cur : Nat) : Nat :=
  match natListMax (specBoundaryEnds s (cur + MAX_CHUNK_SIZE - breakWindow)
      (cur + MAX_CHUNK_SIZE - 1)) with
  | some b => b
  | none => cur + MAX_CHUNK_SIZE

/-- A candidate value offered to `bestBreak` by marker `pat`. -/
def Cand (s : List Char) (lo pos : Nat) (pat : List Char) (b : Nat) : Prop :=
  ∃ pt, lastIndexOfLe s pat pos = some pt ∧ lo ≤ pt ∧ b = pt + pat.length

/-! ### Scheduler (src/unnamed/part_000 `#runNext`, lines 555-577; same
shape in src/index.js `runNext`, lines 732-767).

`runNext` first checks `taskQueueIndex >= tasksToRun.length &&
activePromises.size === 0` and, when it holds, performs the one-shot
finalization guarded by `processingFinished`; otherwise it admits tasks while
the queue has items and `activePromises.size < maxConcurrent`.  Each
admission starts one `#processTask` execution for the next queue position
and registers its promise in the `activePromises` Map under the task's
`relativePath` key — `Map.set` overwrites when the key is already present
(duplicate relative paths are possible: two URLs may sanitize to the same
filename), so the Map's size counts distinct keys, not running executions.
Completion of an execution deletes its key from `activePromises`
(`Map.delete`, a no-op when another completion already removed it) and
synchronously calls `runNext` again (the `.finally` continuation); the
JavaScript runtime is single-threaded, so these continuations never
interleave.

The model therefore tracks both: `inFlight` is the list of queue positions
of the `#processTask` executions that have started and not completed, and
`activeKeys` is the insertion-ordered key list of the `activePromises` Map.
`tasks` is the materialized `tasksToRun` list, task keys standing for
relative paths (duplicates allowed); the key of queue position `i` is
`tasks.getD i 0`. -/

structure SchedState where
  queueIndex : Nat
  inFlight : List Nat
  activeKeys : List Nat
  finished : Bool
  finishCount : Nat
deriving DecidableEq, Repr

/-- `Map.set` on the key list: a fresh key is appended, an existing key
leaves the key set (and its insertion position) unchanged. -/
def mapSet (keys : List Nat) (k : Nat) : List Nat :=
  if k ∈ keys then keys else keys ++ [k]

/-- The admission `while` loop of `#runNext`, fuelled (it runs at most
`tasks.length - queueIndex` times because every admission increments
`queueIndex`): start `#processTask` for the next queue position and `set`
its key into the Map. -/
def admitLoopF (tasks : List Nat) (N : Nat) : Nat → SchedState → SchedState
  | 0, s => s
  | fuel + 1, s =>
    if s.queueIndex < tasks.length ∧ s.activeKeys.length < N then
      admitLoopF tasks N fuel
        { s with queueIndex := s.queueIndex + 1,
                 inFlight := s.inFlight ++ [s.queueIndex],
                 activeKeys := mapSet s.activeKeys (tasks.getD s.queueIndex 0) }
    else s

/-- One synchronous `#runNext` call: finalization check first (on the Map's
size), then the admission loop.  `N` is `maxConcurrent`. -/
def runNext (tasks : List Nat) (N : Nat) (s : SchedState) : SchedState :=
  if tasks.length ≤ s.queueIndex ∧ s.activeKeys = [] then
    if s.finished then s
    else { s with finished := true, finishCount := s.finishCount + 1 }
  else admitLoopF tasks N (tasks.length - s.queueIndex) s

def initSchedState : SchedState := ⟨0, [], [], false, 0⟩

/-- The `.finally` continuation of the execution admitted at queue position
`i`: that execution ends, its `relativePath` key is deleted from the Map,
then `#runNext` runs. -/
def completeTask (tasks : List Nat) (N : Nat) (s : SchedState) (i : Nat) :
    SchedState :=
  runNext tasks N
    { s with inFlight := s.inFlight.erase i,
             activeKeys := s.activeKeys.erase (tasks.getD i 0) }

/-- States reachable during the task phase: the initial `#runNext` call from
`run`, followed by any sequence of task-completion continuations. -/
inductive Reachable (tasks : List Nat) (N : Nat) : SchedState → Prop
  | start : Reachable tasks N (runNext tasks N initSchedState)
  | step {s : SchedState} (i : Nat) : Reachable tasks N s → i ∈ s.inFlight →
      Reachable tasks N (completeTask tasks N s i)

/-- Scheduler invariant that holds on entry to any `#runNext` call: the
Map's size respects the bound, the queue cursor stays in range, and the
one-shot finalization flag agrees with the number of finalizations. -/
def PreInv (tasks : List Nat) (N : Nat) (s : SchedState) : Prop :=
  s.activeKeys.length ≤ N ∧ s.queueIndex ≤ tasks.length ∧
    s.finishCount ≤ 1 ∧ (s.finished ↔ s.finishCount = 1)

/-- Strengthened invariant holding after every `#runNext` call:
additionally, an empty Map means finalization has happened. -/
def PostInv (tasks : List Nat) (N : Nat) (s : SchedState) : Prop :=
  PreInv tasks N s ∧ (s.activeKeys = [] → s.finished)

/-- Bookkeeping between running executions and Map keys: executions are
admitted in list order (their queue positions are strictly increasing and
below the cursor) and the Map's keys are exactly the keys of the running
executions.  The last clause only survives steps when `tasks` has no
duplicate keys — with duplicates, `Map.set` overwrites and the Map
under-counts. -/
def TrackInv (tasks : List Nat) (s : SchedState) : Prop :=
  s.inFlight.Pairwise (· < ·) ∧ (∀ i ∈ s.inFlight, i < s.queueIndex) ∧
    s.queueIndex ≤ tasks.length ∧
    s.activeKeys = s.inFlight.map (fun i => tasks.getD i 0)

/-! ### Task state machine and per-task processing
(src/unnamed/part_000 `#processTask`, lines 437-547). -/

inductive TaskStatus
  | pending
  | skipped
  | generating
  | saving
  | success
  | error
deriving DecidableEq, Repr

structure IndexEntry where
  title : String
  description : String
  path : String
deriving DecidableEq, Repr

/-- The schema-validated output of one `generateObject` call. -/
structure GenResult where
  title : String
  description : String
  markdownContent : String
deriving DecidableEq, Repr

/-- The per-chunk generation loop of `#processTask`: chunk 0 sets the final
title and description, every chunk appends its markdown (with a `\n\n`
separator after the first), and any raised error aborts the loop. -/
def generateChunks (gen : Nat → Except String GenResult) :
    List Nat → String × String × String → Except String (String × String × String)
  | [], acc => .ok acc
  | i :: rest, acc =>
    match gen i with
    | .error msg => .error msg
    | .ok doc =>
      generateChunks gen rest
        (if i = 0 then doc.title else acc.1,
         if i = 0 then doc.description else acc.2.1,
         acc.2.2 ++ (if i = 0 then "" else "\n\n") ++ doc.markdownContent)

/-- The task fields `#processTask` reads: the derived filename and the
workspace-relative target path (`path.relative(process.cwd(), filePath)`). -/
structure TaskInput where
  filename : String
  wsRelPath : String
  numChunks : Nat
deriving Repr

structure TaskResult where
  status : TaskStatus
  message : String
  indexEntries : List IndexEntry
  successInc : Nat
  errorInc : Nat
deriving Repr

/-- The failure IndexEntry pushed by the `catch` block of `#processTask`. -/
def failureEntry (t : TaskInput) (msg : String) : IndexEntry :=
  ⟨t.filename, "(Failed: " ++ msg.take 50 ++ "...)", t.wsRelPath ++ ".error"⟩

/-- `#processTask`, as a pure function of the task data, a per-chunk
generation oracle `gen` (`.error` models a thrown exception from the
transformation client) and a save oracle `save` (`.error` models a thrown
filesystem error in `writeFile`), acting on the shared `indexEntries` list.
The source initializes the title to `filename.replace(".md", "")`. -/
def processTask (t : TaskInput) (gen : Nat → Except String GenResult)
    (save : Except String Unit) (entries : List IndexEntry) : TaskResult :=
  match generateChunks gen (List.range t.numChunks)
      (t.filename.replace ".md" "", "", "") with
  | .error msg => ⟨.error, msg, entries ++ [failureEntry t msg], 0, 1⟩
  | .ok (title, description, _) =>
    match save with
    | .error msg => ⟨.error, msg, entries ++ [failureEntry t msg], 0, 1⟩
    | .ok _ => ⟨.success, "", entries ++ [⟨title, description, t.wsRelPath⟩], 1, 0⟩

/-! ### Task materialization (src/unnamed/part_000 `run`, lines 1043-1049;
src/index.js `main`, lines 543-554). -/

structure MaterializeResult where
  status : TaskStatus
  successInc : Nat
  skippedInc : Nat
  addedToRun : Bool
  entryAdded : Option IndexEntry
deriving DecidableEq, Repr

/-- Materialization of one task in the class-based generator
(src/unnamed/part_000, lines 1043-1049): when the artifact file exists and
regeneration was not requested, the task is marked `success` and the success
counter incremented; otherwise it stays `pending` and is pushed onto
`tasksToRun`. -/
def materializeTask (shouldRegenerate fileExists : Bool) : MaterializeResult :=
  if !shouldRegenerate && fileExists then ⟨.success, 1, 0, false, none⟩
  else ⟨.pending, 0, 0, true, none⟩

/-- Materialization of one task in the script version (src/index.js,
lines 543-554): when the artifact file exists and overwrite was not
requested, the task is marked `skipped`, the skipped counter incremented and
a placeholder index entry pushed; otherwise it stays `pending` and is pushed
onto `tasksToRun`. -/
def materializeTaskLegacy (shouldRestart fileExists : Bool)
    (filename relativePath : String) : MaterializeResult :=
  if !shouldRestart && fileExists then
    ⟨.skipped, 0, 1, false,
      some ⟨filename.replace ".md" "", "(Skipped - File Exists)", relativePath⟩⟩
  else ⟨.pending, 0, 0, true, none⟩

/-! ### Pre-task exit behavior (src/unnamed/part_000 `run`, lines 950-958,
976-984; src/index.js `main`, lines 478-487). -/

inductive CrawlOutcome
  | failed
  | ok (pages : Nat)
deriving DecidableEq, Repr

/-- The exit decisions taken before any task runs, in source order:
`maxConcurrent` is validated first (`parseInt` giving `NaN` or a
non-positive integer is modelled as `none` or a non-positive `Int`, both
`process.exit(1)`); then a crawl that throws is `process.exit(1)`; then a
crawl that returns zero pages is `process.exit(0)`.  `none` means execution
continues into the task phase. -/
def preTaskExit (maxConcurrent : Option Int) (crawl : CrawlOutcome) : Option Nat :=
  match maxConcurrent with
  | none => some 1
  | some c =>
    if c ≤ 0 then some 1
    else
      match crawl with
      | .failed => some 1
      | .ok n => if n = 0 then some 0 else none

/-! ## Theorems -/

/-! ### Claim C3: skip-at-materialization -/

/-- Claim C3 counterexample: in the class-based generator
(src/unnamed/part_000, lines 1043-1049), a task whose artifact file already
exists when regeneration was not requested is marked `success` — not
`skipped` — at materialization, and the skipped counter is not incremented. -/
theorem c3_materialize_counterexample :
    (materializeTask false true).status = TaskStatus.success ∧
    (materializeTask false true).status ≠ TaskStatus.skipped ∧
    (materializeTask false true).skippedInc = 0 := by
  decide

/-- Claim C3 (amended): a materialized task whose artifact file already
exists at the deterministic target path when regeneration was not requested
is finalized at materialization and never handed to the scheduler
(`addedToRun = false`); in the class-based generator it transitions
Pending → Success and is counted in the success counter (with no index entry
pushed at materialization), while in the legacy script it transitions
Pending → Skipped, is counted in the skipped counter and a placeholder
entry is pushed. -/
theorem c3_materialize_amended :
    ∀ filename relativePath : String,
      materializeTask false true =
        ⟨TaskStatus.success, 1, 0, false, none⟩ ∧
      materializeTaskLegacy false true filename relativePath =
        ⟨TaskStatus.skipped, 0, 1, false,
          some ⟨filename.replace ".md" "", "(Skipped - File Exists)", relativePath⟩⟩ :=
  fun _ _ => ⟨rfl, rfl⟩

/-! ### Claim C7: exactly one index entry per executed task -/

/-- Claim C7: every executed (non-skipped) task appends exactly one index
entry whatever the outcome: if chunk generation or saving raises, the task
ends in `error` with the raised message recorded and the failure entry
`{title: filename, description: "(Failed: " ++ message.take 50 ++ "...)",
path: wsRelPath ++ ".error"}` appended; if everything succeeds it ends in
`success` with `{title, description, wsRelPath}` appended, the title and
description coming from the generation results.  The outcome is always one
of these two — `processTask` is total, so no exception escapes the task. -/
theorem c7_process_task_one_entry :
    ∀ (t : TaskInput) (gen : Nat → Except String GenResult)
      (save : Except String Unit) (entries : List IndexEntry),
      (processTask t gen save entries).indexEntries.length = entries.length + 1 ∧
      ((∃ msg,
          (generateChunks gen (List.range t.numChunks)
              (t.filename.replace ".md" "", "", "") = .error msg ∨
            (∃ res, generateChunks gen (List.range t.numChunks)
                (t.filename.replace ".md" "", "", "") = .ok res ∧
              save = .error msg)) ∧
          processTask t gen save entries =
            ⟨TaskStatus.error, msg, entries ++ [failureEntry t msg], 0, 1⟩ ∧
          failureEntry t msg =
            ⟨t.filename, "(Failed: " ++ msg.take 50 ++ "...)",
              t.wsRelPath ++ ".error"⟩) ∨
        (∃ title description md,
          generateChunks gen (List.range t.numChunks)
              (t.filename.replace ".md" "", "", "") = .ok (title, description, md) ∧
          save = .ok () ∧
          processTask t gen save entries =
            ⟨TaskStatus.success, "", entries ++ [⟨title, description, t.wsRelPath⟩],
              1, 0⟩)) := by
  intro t gen save entries
  unfold processTask
  cases hg : generateChunks gen (List.range t.numChunks)
      (t.filename.replace ".md" "", "", "") with
  | error msg =>
    refine ⟨by simp, Or.inl ⟨msg, Or.inl rfl, rfl, rfl⟩⟩
  | ok res =>
    obtain ⟨title, description, md⟩ := res
    cases hs : save with
    | error msg =>
      exact ⟨by simp, Or.inl ⟨msg, Or.inr ⟨_, rfl, rfl⟩, rfl, rfl⟩⟩
    | ok u =>
      cases u
      exact ⟨by simp, Or.inr ⟨title, description, md, rfl, rfl, rfl⟩⟩

/-! ### Claim C8: exit status before the task phase -/

/-- Claim C8 counterexample: with a valid concurrency value (2) and a crawl
that produced zero pages, the process exits with status 0 — there is no
non-zero exit code for the zero-pages case (src/unnamed/part_000,
lines 981-984: `process.exit(0)`). -/
theorem c8_zero_pages_counterexample :
    ¬ ∃ code, preTaskExit (some 2) (CrawlOutcome.ok 0) = some code ∧ code ≠ 0 := by
  rintro ⟨code, hc, hne⟩
  have h0 : preTaskExit (some 2) (CrawlOutcome.ok 0) = some 0 := rfl
  rw [h0] at hc
  exact hne (Option.some.inj hc).symm

/-- Claim C8 (amended): if the crawl produces zero pages the process does
exit before any tasks run, but with status 0 (success), unlike an invalid
(non-integer or non-positive) concurrency value or a crawl failure, which
exit with status 1. -/
theorem c8_pre_task_exit_amended :
    (∀ c : Int, 0 < c → preTaskExit (some c) (CrawlOutcome.ok 0) = some 0) ∧
    (∀ crawl, preTaskExit none crawl = some 1) ∧
    (∀ c : Int, c ≤ 0 → ∀ crawl, preTaskExit (some c) crawl = some 1) ∧
    (∀ c : Int, 0 < c → preTaskExit (some c) CrawlOutcome.failed = some 1) := by
  refine ⟨fun c hc => ?_, fun crawl => rfl, fun c hc crawl => ?_, fun c hc => ?_⟩
  · simp [preTaskExit, not_le.mpr hc]
  · simp [preTaskExit, hc]
  · simp [preTaskExit, not_le.mpr hc]

/-- Claim C8 amended witness: the amended exit behavior at concrete inputs. -/
theorem c8_pre_task_exit_amended_witness :
    preTaskExit (some 2) (CrawlOutcome.ok 0) = some 0 ∧
    preTaskExit none (CrawlOutcome.ok 3) = some 1 ∧
    preTaskExit (some 0) (CrawlOutcome.ok 3) = some 1 ∧
    preTaskExit (some 2) CrawlOutcome.failed = some 1 :=
  ⟨c8_pre_task_exit_amended.1 2 (by decide),
    c8_pre_task_exit_amended.2.1 _,
    c8_pre_task_exit_amended.2.2.1 0 (by decide) _,
    c8_pre_task_exit_amended.2.2.2 2 (by decide)⟩

/-! ### Scheduler lemmas (Claims C1 and C6) -/

theorem mapSet_length_le (keys : List Nat) (k : Nat) :
    (mapSet keys k).length ≤ keys.length + 1 := by
  unfold mapSet
  split
  · omega
  · simp

theorem mapSet_ne_nil (keys : List Nat) (k : Nat) : mapSet keys k ≠ [] := by
  unfold mapSet
  split
  case isTrue h =>
    intro hnil
    rw [hnil] at h
    simp at h
  case isFalse _ => simp

theorem mapSet_of_not_mem {keys : List Nat} {k : Nat} (h : k ∉ keys) :
    mapSet keys k = keys ++ [k] := by
  unfold mapSet
  rw [if_neg h]

theorem admitLoopF_keys_ne_nil (tasks : List Nat) (N : Nat) :
    ∀ (fuel : Nat) (s : SchedState), s.activeKeys ≠ [] →
      (admitLoopF tasks N fuel s).activeKeys ≠ []
  | 0, _, h => h
  | fuel + 1, s, h => by
    unfold admitLoopF
    split
    · exact admitLoopF_keys_ne_nil tasks N fuel _ (mapSet_ne_nil _ _)
    · exact h

theorem admitLoopF_preInv (tasks : List Nat) (N : Nat) :
    ∀ (fuel : Nat) (s : SchedState), PreInv tasks N s →
      PreInv tasks N (admitLoopF tasks N fuel s)
  | 0, _, h => h
  | fuel + 1, s, h => by
    unfold admitLoopF
    split
    case isTrue hc =>
      refine admitLoopF_preInv tasks N fuel _ ?_
      obtain ⟨hlen, hqn, hfc, hiff⟩ := h
      refine ⟨?_, hc.1, hfc, hiff⟩
      show (mapSet s.activeKeys (tasks.getD s.queueIndex 0)).length ≤ N
      have h1 := mapSet_length_le s.activeKeys (tasks.getD s.queueIndex 0)
      have h2 := hc.2
      omega
    case isFalse _ => exact h

theorem preInv_init (tasks : List Nat) (N : Nat) :
    PreInv tasks N initSchedState := by
  refine ⟨?_, ?_, ?_, ?_⟩ <;> simp [initSchedState, PreInv]

theorem preInv_complete {tasks : List Nat} {N : Nat} {s : SchedState}
    (h : PreInv tasks N s) (i : Nat) :
    PreInv tasks N { s with inFlight := s.inFlight.erase i,
                            activeKeys := s.activeKeys.erase (tasks.getD i 0) }
    := by
  obtain ⟨hlen, hqn, hfc, hiff⟩ := h
  exact ⟨le_trans (List.Sublist.length_le (List.erase_sublist _ _)) hlen,
    hqn, hfc, hiff⟩

theorem runNext_postInv {tasks : List Nat} {N : Nat} (hN : 0 < N)
    {s : SchedState} (h : PreInv tasks N s) :
    PostInv tasks N (runNext tasks N s) := by
  unfold runNext
  by_cases hdone : tasks.length ≤ s.queueIndex ∧ s.activeKeys = []
  · rw [if_pos hdone]
    by_cases hfin : s.finished
    · rw [if_pos hfin]
      exact ⟨h, fun _ => hfin⟩
    · rw [if_neg hfin]
      obtain ⟨hlen, hqn, hfc, hiff⟩ := h
      have hc0 : s.finishCount = 0 := by
        rcases Nat.eq_or_lt_of_le hfc with h1 | h1
        · exact absurd (hiff.mpr h1) hfin
        · omega
      exact ⟨⟨hlen, hqn, by simp [hc0], by simp [hc0]⟩, fun _ => rfl⟩
  · rw [if_neg hdone]
    refine ⟨admitLoopF_preInv tasks N _ s h, fun hnil => ?_⟩
    exfalso
    by_cases ha : s.activeKeys = []
    · have hqi : s.queueIndex < tasks.length := by
        rcases Nat.lt_or_ge s.queueIndex tasks.length with h1 | h1
        · exact h1
        · exact absurd ⟨h1, ha⟩ hdone
      have hfuel : tasks.length - s.queueIndex =
          (tasks.length - s.queueIndex - 1) + 1 := by omega
      rw [hfuel] at hnil
      have hcond : s.queueIndex < tasks.length ∧ s.activeKeys.length < N :=
        ⟨hqi, by simpa [ha] using hN⟩
      rw [admitLoopF, if_pos hcond] at hnil
      exact admitLoopF_keys_ne_nil tasks N _ _ (mapSet_ne_nil _ _) hnil
    · exact admitLoopF_keys_ne_nil tasks N _ _ ha hnil

theorem reachable_postInv {tasks : List Nat} {N : Nat} (hN : 0 < N)
    {s : SchedState} (h : Reachable tasks N s) : PostInv tasks N s := by
  induction h with
  | start => exact runNext_postInv hN (preInv_init tasks N)
  | step i _ hmem ih => exact runNext_postInv hN (preInv_complete ih.1 i)

theorem getD_ne_of_nodup {l : List Nat} (h : l.Nodup) {i j : Nat}
    (hi : i < l.length) (hj : j < l.length) (hne : i ≠ j) :
    l.getD i 0 ≠ l.getD j 0 := by
  have hgi : l.getD i 0 = l[i] := by
    rw [List.getD_eq_getElem?_getD, List.getElem?_eq_getElem hi]
    rfl
  have hgj : l.getD j 0 = l[j] := by
    rw [List.getD_eq_getElem?_getD, List.getElem?_eq_getElem hj]
    rfl
  rw [hgi, hgj]
  intro heq
  exact hne ((List.Nodup.getElem_inj_iff h).mp heq)

theorem map_erase_inj_on (f : Nat → Nat) :
    ∀ (l : List Nat) (a : Nat), (∀ x ∈ l, f x = f a → x = a) →
      (l.erase a).map f = (l.map f).erase (f a)
  | [], _, _ => rfl
  | x :: t, a, hinj => by
    rw [List.erase_cons]
    by_cases hx : x = a
    · subst hx
      rw [if_pos (by simp)]
      show List.map f t = (f x :: List.map f t).erase (f x)
      rw [List.erase_cons, if_pos (by simp)]
    · have hfx : ¬ ((f x == f a) = true) := by
        simp only [beq_iff_eq]
        intro hfeq
        exact hx (hinj x (List.mem_cons_self _ _) hfeq)
      rw [if_neg (by simp [hx])]
      show f x :: (t.erase a).map f = (f x :: t.map f).erase (f a)
      rw [List.erase_cons, if_neg hfx,
        map_erase_inj_on f t a (fun y hy => hinj y (List.mem_cons_of_mem _ hy))]

theorem admitLoopF_trackInv (tasks : List Nat) (N : Nat) (hnd : tasks.Nodup) :
    ∀ (fuel : Nat) (s : SchedState), TrackInv tasks s →
      TrackInv tasks (admitLoopF tasks N fuel s)
  | 0, _, h => h
  | fuel + 1, s, h => by
    unfold admitLoopF
    split
    case isTrue hc =>
      refine admitLoopF_trackInv tasks N hnd fuel _ ?_
      obtain ⟨hpw, hmem, hqn, hkeys⟩ := h
      have hknew : tasks.getD s.queueIndex 0 ∉ s.activeKeys := by
        rw [hkeys]
        intro hmem2
        rcases List.mem_map.mp hmem2 with ⟨j, hj, hjeq⟩
        have hjlt : j < s.queueIndex := hmem j hj
        exact getD_ne_of_nodup hnd (by omega) hc.1 (by omega) hjeq
      refine ⟨?_, ?_, hc.1, ?_⟩
      · show (s.inFlight ++ [s.queueIndex]).Pairwise (· < ·)
        rw [List.pairwise_append]
        refine ⟨hpw, List.pairwise_singleton _ _, ?_⟩
        intro a ha b hb
        simp only [List.mem_singleton] at hb
        subst hb
        exact hmem a ha
      · show ∀ i ∈ s.inFlight ++ [s.queueIndex], i < s.queueIndex + 1
        intro i hi
        rcases List.mem_append.mp hi with h1 | h1
        · exact Nat.lt_succ_of_lt (hmem i h1)
        · simp only [List.mem_singleton] at h1
          omega
      · show mapSet s.activeKeys (tasks.getD s.queueIndex 0) =
          (s.inFlight ++ [s.queueIndex]).map fun i => tasks.getD i 0
        rw [mapSet_of_not_mem hknew, hkeys, List.map_append]
        rfl
    case isFalse _ => exact h

theorem trackInv_init (tasks : List Nat) : TrackInv tasks initSchedState := by
  refine ⟨?_, ?_, ?_, ?_⟩ <;> simp [initSchedState, TrackInv]

theorem trackInv_complete {tasks : List Nat} (hnd : tasks.Nodup)
    {s : SchedState} (h : TrackInv tasks s) {i : Nat} (hi : i ∈ s.inFlight) :
    TrackInv tasks { s with inFlight := s.inFlight.erase i,
                            activeKeys := s.activeKeys.erase (tasks.getD i 0) }
    := by
  obtain ⟨hpw, hmem, hqn, hkeys⟩ := h
  refine ⟨hpw.sublist (List.erase_sublist _ _),
    fun x hx => hmem x (List.mem_of_mem_erase hx), hqn, ?_⟩
  show s.activeKeys.erase (tasks.getD i 0) =
    (s.inFlight.erase i).map fun j => tasks.getD j 0
  have hinj : ∀ x ∈ s.inFlight,
      tasks.getD x 0 = tasks.getD i 0 → x = i := by
    intro x hx hfeq
    by_contra hne
    have hxlt : x < s.queueIndex := hmem x hx
    have hilt : i < s.queueIndex := hmem i hi
    exact getD_ne_of_nodup hnd (by omega) (by omega) hne hfeq
  rw [hkeys, map_erase_inj_on _ _ _ hinj]

theorem runNext_trackInv {tasks : List Nat} {N : Nat} (hnd : tasks.Nodup)
    {s : SchedState} (h : TrackInv tasks s) :
    TrackInv tasks (runNext tasks N s) := by
  unfold runNext
  split
  · split
    · exact h
    · exact h
  · exact admitLoopF_trackInv tasks N hnd _ s h

theorem reachable_trackInv {tasks : List Nat} {N : Nat} (hnd : tasks.Nodup)
    {s : SchedState} (h : Reachable tasks N s) : TrackInv tasks s := by
  induction h with
  | start => exact runNext_trackInv hnd (trackInv_init tasks)
  | step i _ hmem ih => exact runNext_trackInv hnd (trackInv_complete hnd ih hmem)

/-! ### Claim C1: bounded concurrency -/

/-- Claim C1 counterexample: the in-flight bound fails for a task list with
duplicate relative-path keys — the documented filename-collision case.
With `tasksToRun = [0, 0, 1]` (the first two tasks share key 0) and bound
`N = 2`, the very first `#runNext` call starts three `#processTask`
executions: `Map.set` overwrites the duplicate key's entry, so
`activePromises.size` is still 1 after the second admission and the size
check admits a third task while the first two executions are running. -/
theorem c1_concurrency_counterexample :
    Reachable [0, 0, 1] 2 (runNext [0, 0, 1] 2 initSchedState) ∧
      2 < (runNext [0, 0, 1] 2 initSchedState).inFlight.length :=
  ⟨Reachable.start, by decide⟩

/-- Claim C1 (amended): for every task list whose task keys (relative
paths) are pairwise distinct — i.e. without the documented
filename-collision — and every positive bound `N`, every reachable state
has at most `N` running `#processTask` executions, and admission follows
the materialized-list order (the running executions' queue positions are
strictly increasing and all below the cursor).  With duplicate keys the
`activePromises` Map under-counts and the bound can be exceeded. -/
theorem c1_concurrency_bound :
    ∀ (tasks : List Nat) (N : Nat) (s : SchedState), 0 < N → tasks.Nodup →
      Reachable tasks N s →
      s.inFlight.length ≤ N ∧ s.inFlight.Pairwise (· < ·) ∧
        ∀ i ∈ s.inFlight, i < s.queueIndex := by
  intro tasks N s hN hnd hr
  obtain ⟨⟨hlen, _, _, _⟩, _⟩ := reachable_postInv hN hr
  obtain ⟨hpw, hmem, _, hkeys⟩ := reachable_trackInv hnd hr
  refine ⟨?_, hpw, hmem⟩
  rw [hkeys, List.length_map] at hlen
  exact hlen

/-- Claim C1 witness: the amended bound at the state after the initial
`#runNext` call on a duplicate-free two-task list with bound 1. -/
theorem c1_concurrency_bound_witness :
    (runNext [0, 1] 1 initSchedState).inFlight.length ≤ 1 ∧
      (runNext [0, 1] 1 initSchedState).inFlight.Pairwise (· < ·) ∧
      ∀ i ∈ (runNext [0, 1] 1 initSchedState).inFlight,
        i < (runNext [0, 1] 1 initSchedState).queueIndex :=
  c1_concurrency_bound [0, 1] 1 _ (by decide) (by decide) Reachable.start

/-! ### Claim C6: one-shot finalization -/

/-- Claim C6: in every state reachable during the task phase (any task
list, duplicate keys included, and any positive bound `N`), the finalizer
has been invoked at most once, the `processingFinished` flag holds exactly
when it has been invoked, and whenever the `activePromises` Map is empty
after a `#runNext` call — in particular when the queue is exhausted and the
last continuation has run — it has been invoked exactly once. -/
theorem c6_finalize_once :
    ∀ (tasks : List Nat) (N : Nat) (s : SchedState), 0 < N →
      Reachable tasks N s →
      s.finishCount ≤ 1 ∧ (s.finished ↔ s.finishCount = 1) ∧
        (s.activeKeys = [] → s.finishCount = 1) := by
  intro tasks N s hN hr
  obtain ⟨⟨_, _, hfc, hiff⟩, hnil⟩ := reachable_postInv hN hr
  exact ⟨hfc, hiff, fun h => hiff.mp (hnil h)⟩

/-- Claim C6 witness: with an empty task list the initial `#runNext` call
finalizes exactly once. -/
theorem c6_finalize_once_witness :
    (runNext [] 1 initSchedState).finishCount ≤ 1 ∧
      ((runNext [] 1 initSchedState).finished ↔
        (runNext [] 1 initSchedState).finishCount = 1) ∧
      ((runNext [] 1 initSchedState).activeKeys = [] →
        (runNext [] 1 initSchedState).finishCount = 1) :=
  c6_finalize_once [] 1 _ (by decide) Reachable.start
/-! ### Chunker lemmas (Claims C2, C5 and C10) -/

theorem getLast?_le_of_pairwise {l : List Nat} (hp : l.Pairwise (· < ·)) :
    ∀ {m : Nat}, l.getLast? = some m → ∀ x ∈ l, x ≤ m := by
  induction l with
  | nil => intro m _ x hx; simp at hx
  | cons a t ih =>
    intro m hm x hx
    cases t with
    | nil =>
      simp at hm hx
      omega
    | cons b t2 =>
      rw [List.getLast?_cons_cons] at hm
      rcases List.mem_cons.mp hx with rfl | hx2
      · have hmmem : m ∈ b :: t2 := by
          rcases List.mem_getLast?_eq_getLast (Option.mem_def.mpr hm) with ⟨hne, heq⟩
          rw [heq]
          exact List.getLast_mem hne
        have := (List.pairwise_cons.mp hp).1 m hmmem
        omega
      · exact ih (List.pairwise_cons.mp hp).2 hm x hx2

theorem lastIndexOfLe_some {s pat : List Char} {pos pt : Nat}
    (h : lastIndexOfLe s pat pos = some pt) :
    pat.isPrefixOf (s.drop pt) = true ∧ pt ≤ pos ∧
      ∀ j, j ≤ pos → pat.isPrefixOf (s.drop j) = true → j ≤ pt := by
  unfold lastIndexOfLe at h
  have hpw : ((List.range (pos + 1)).filter
      fun i => pat.isPrefixOf (s.drop i)).Pairwise (· < ·) :=
    (List.pairwise_lt_range _).filter _
  have hmem : pt ∈ (List.range (pos + 1)).filter
      fun i => pat.isPrefixOf (s.drop i) := by
    rcases List.mem_getLast?_eq_getLast (Option.mem_def.mpr h) with ⟨hne, heq⟩
    rw [heq]
    exact List.getLast_mem hne
  have h1 := List.mem_filter.mp hmem
  refine ⟨h1.2, by have := List.mem_range.mp h1.1; omega, ?_⟩
  intro j hj hpre
  exact getLast?_le_of_pairwise hpw h j
    (List.mem_filter.mpr ⟨List.mem_range.mpr (by omega), hpre⟩)

theorem lastIndexOfLe_none {s pat : List Char} {pos : Nat}
    (h : lastIndexOfLe s pat pos = none) :
    ∀ j, j ≤ pos → ¬ pat.isPrefixOf (s.drop j) = true := by
  intro j hj hpre
  unfold lastIndexOfLe at h
  rw [List.getLast?_eq_none_iff] at h
  have hmem : j ∈ (List.range (pos + 1)).filter
      fun i => pat.isPrefixOf (s.drop i) :=
    List.mem_filter.mpr ⟨List.mem_range.mpr (by omega), hpre⟩
  rw [h] at hmem
  simp at hmem

theorem natListMax_eq_none {l : List Nat} (h : natListMax l = none) : l = [] := by
  cases l with
  | nil => rfl
  | cons x xs =>
    unfold natListMax at h
    cases hx : natListMax xs <;> simp [hx] at h

theorem natListMax_mem : ∀ {l : List Nat} {m : Nat}, natListMax l = some m → m ∈ l := by
  intro l
  induction l with
  | nil => intro m h; simp [natListMax] at h
  | cons x xs ih =>
    intro m h
    unfold natListMax at h
    cases hx : natListMax xs with
    | none =>
      rw [hx] at h
      simp at h
      exact h ▸ List.mem_cons_self x xs
    | some k =>
      rw [hx] at h
      simp at h
      rcases Nat.le_total x k with hle | hle
      · rw [← h, max_eq_right hle]
        exact List.mem_cons_of_mem _ (ih hx)
      · rw [← h, max_eq_left hle]
        exact List.mem_cons_self x xs

theorem natListMax_ub : ∀ {l : List Nat} {m : Nat}, natListMax l = some m →
    ∀ x ∈ l, x ≤ m := by
  intro l
  induction l with
  | nil => intro m _ x hx; simp at hx
  | cons a xs ih =>
    intro m h x hx
    unfold natListMax at h
    cases hx2 : natListMax xs with
    | none =>
      rw [hx2] at h
      simp at h
      have hxs := natListMax_eq_none hx2
      subst hxs
      simp at hx
      omega
    | some k =>
      rw [hx2] at h
      simp at h
      rcases List.mem_cons.mp hx with rfl | hmem
      · exact h ▸ le_max_left x k
      · exact h ▸ le_trans (ih hx2 x hmem) (le_max_right a k)

theorem natListMax_eq_of_mem_ub {l : List Nat} {m : Nat} (hm : m ∈ l)
    (hub : ∀ x ∈ l, x ≤ m) : natListMax l = some m := by
  cases hl : natListMax l with
  | none =>
    rw [natListMax_eq_none hl] at hm
    simp at hm
  | some k =>
    have h1 : k ≤ m := hub k (natListMax_mem hl)
    have h2 : m ≤ k := natListMax_ub hl m hm
    rw [Nat.le_antisymm h1 h2]

theorem mem_specBoundaryEnds {s : List Char} {lo hi b : Nat} :
    b ∈ specBoundaryEnds s lo hi ↔
      ∃ pat pt, pat ∈ sentenceEndings ∧ lo ≤ pt ∧ pt ≤ hi ∧
        pat.isPrefixOf (s.drop pt) = true ∧ b = pt + pat.length := by
  unfold specBoundaryEnds boundaryEndsAt
  constructor
  · intro hb
    rcases List.mem_flatMap.mp hb with ⟨pt, hpt, hin⟩
    have h1 := List.mem_filter.mp hpt
    rcases List.mem_filterMap.mp hin with ⟨pat, hpat, heq⟩
    cases hpre : pat.isPrefixOf (s.drop pt) with
    | false =>
      rw [hpre] at heq
      simp at heq
    | true =>
      rw [hpre] at heq
      simp at heq
      exact ⟨pat, pt, hpat, by simpa using h1.2,
        by have := List.mem_range.mp h1.1; omega, hpre, heq.symm⟩
  · rintro ⟨pat, pt, hpat, hlo, hhi, hpre, rfl⟩
    refine List.mem_flatMap.mpr ⟨pt, ?_, ?_⟩
    · exact List.mem_filter.mpr ⟨List.mem_range.mpr (by omega), by simpa using hlo⟩
    · exact List.mem_filterMap.mpr ⟨pat, hpat, by rw [hpre]; simp⟩

theorem bestBreakFold_some_spec (s : List Char) (lo pos : Nat) :
    ∀ (pats : List (List Char)) (acc : Option Nat) (m : Nat),
      bestBreakFold s lo pos pats acc = some m →
      (acc = some m ∨ ∃ pat ∈ pats, Cand s lo pos pat m) ∧
        (∀ b, acc = some b → b ≤ m) ∧
        (∀ pat ∈ pats, ∀ b, Cand s lo pos pat b → b ≤ m) := by
  intro pats
  induction pats with
  | nil =>
    intro acc m h
    unfold bestBreakFold at h
    refine ⟨Or.inl h, fun b hb => ?_, fun pat hpat => absurd hpat (List.not_mem_nil pat)⟩
    rw [hb] at h
    exact le_of_eq (Option.some.inj h)
  | cons pat rest ih =>
    intro acc m h
    unfold bestBreakFold at h
    cases hli : lastIndexOfLe s pat pos with
    | none =>
      rw [hli] at h
      obtain ⟨hmem, hacc, hrest⟩ := ih acc m h
      refine ⟨?_, hacc, ?_⟩
      · rcases hmem with h1 | ⟨p, hp, hc⟩
        · exact Or.inl h1
        · exact Or.inr ⟨p, List.mem_cons_of_mem _ hp, hc⟩
      · intro p hp b hc
        rcases List.mem_cons.mp hp with rfl | hp2
        · rcases hc with ⟨pt, hpt, _, _⟩
          rw [hli] at hpt
          simp at hpt
        · exact hrest p hp2 b hc
    | some pt =>
      simp only [hli] at h
      by_cases hlo : lo ≤ pt
      · rw [if_pos hlo] at h
        cases hacc0 : acc with
        | none =>
          rw [hacc0] at h
          obtain ⟨hmem, hacc, hrest⟩ := ih _ m h
          have hub1 : pt + pat.length ≤ m := hacc _ rfl
          refine ⟨?_, ?_, ?_⟩
          · rcases hmem with h1 | ⟨p, hp, hc⟩
            · exact Or.inr ⟨pat, List.mem_cons_self _ _,
                ⟨pt, hli, hlo, (Option.some.inj h1).symm⟩⟩
            · exact Or.inr ⟨p, List.mem_cons_of_mem _ hp, hc⟩
          · intro b hb
            simp at hb
          · intro p hp b hc
            rcases List.mem_cons.mp hp with rfl | hp2
            · rcases hc with ⟨pt2, hpt2, hlo2, rfl⟩
              rw [hli] at hpt2
              have hpteq := Option.some.inj hpt2
              omega
            · exact hrest p hp2 b hc
        | some b0 =>
          rw [hacc0] at h
          obtain ⟨hmem, hacc, hrest⟩ := ih _ m h
          have hmax : max b0 (pt + pat.length) ≤ m := hacc _ rfl
          refine ⟨?_, ?_, ?_⟩
          · rcases hmem with h1 | ⟨p, hp, hc⟩
            · have hm := Option.some.inj h1
              rcases Nat.le_total b0 (pt + pat.length) with hle | hle
              · rw [max_eq_right hle] at hm
                exact Or.inr ⟨pat, List.mem_cons_self _ _, ⟨pt, hli, hlo, hm.symm⟩⟩
              · rw [max_eq_left hle] at hm
                exact Or.inl (by rw [hm])
            · exact Or.inr ⟨p, List.mem_cons_of_mem _ hp, hc⟩
          · intro b hb
            have hb0 := Option.some.inj hb
            subst hb0
            exact le_trans (le_max_left _ _) hmax
          · intro p hp b hc
            rcases List.mem_cons.mp hp with rfl | hp2
            · rcases hc with ⟨pt2, hpt2, hlo2, rfl⟩
              rw [hli] at hpt2
              have hpteq := Option.some.inj hpt2
              omega
            · exact hrest p hp2 b hc
      · rw [if_neg hlo] at h
        obtain ⟨hmem, hacc, hrest⟩ := ih acc m h
        refine ⟨?_, hacc, ?_⟩
        · rcases hmem with h1 | ⟨p, hp, hc⟩
          · exact Or.inl h1
          · exact Or.inr ⟨p, List.mem_cons_of_mem _ hp, hc⟩
        · intro p hp b hc
          rcases List.mem_cons.mp hp with rfl | hp2
          · rcases hc with ⟨pt2, hpt2, hlo2, _⟩
            rw [hli] at hpt2
            have hpteq := Option.some.inj hpt2
            exact absurd (by omega : lo ≤ pt) hlo
          · exact hrest p hp2 b hc

theorem bestBreakFold_none_spec (s : List Char) (lo pos : Nat) :
    ∀ (pats : List (List Char)) (acc : Option Nat),
      bestBreakFold s lo pos pats acc = none →
      acc = none ∧ ∀ pat ∈ pats, ∀ b, ¬ Cand s lo pos pat b := by
  intro pats
  induction pats with
  | nil =>
    intro acc h
    exact ⟨h, fun pat hpat => absurd hpat (List.not_mem_nil pat)⟩
  | cons pat rest ih =>
    intro acc h
    unfold bestBreakFold at h
    cases hli : lastIndexOfLe s pat pos with
    | none =>
      rw [hli] at h
      obtain ⟨hacc, hrest⟩ := ih acc h
      refine ⟨hacc, ?_⟩
      intro p hp b hc
      rcases List.mem_cons.mp hp with rfl | hp2
      · rcases hc with ⟨pt, hpt, _, _⟩
        rw [hli] at hpt
        simp at hpt
      · exact hrest p hp2 b hc
    | some pt =>
      simp only [hli] at h
      by_cases hlo : lo ≤ pt
      · rw [if_pos hlo] at h
        cases hacc0 : acc with
        | none =>
          rw [hacc0] at h
          have := (ih _ h).1
          simp at this
        | some b0 =>
          rw [hacc0] at h
          have := (ih _ h).1
          simp at this
      · rw [if_neg hlo] at h
        obtain ⟨hacc, hrest⟩ := ih acc h
        refine ⟨hacc, ?_⟩
        intro p hp b hc
        rcases List.mem_cons.mp hp with rfl | hp2
        · rcases hc with ⟨pt2, hpt2, hlo2, _⟩
          rw [hli] at hpt2
          have hpteq := Option.some.inj hpt2
          exact hlo (by omega)
        · exact hrest p hp2 b hc

theorem sentenceEndings_len : ∀ pat ∈ sentenceEndings,
    1 ≤ pat.length ∧ pat.length ≤ 2 := by decide

theorem bestBreakAt_eq_spec (s : List Char) (cur : Nat) :
    bestBreakAt s cur (cur + MAX_CHUNK_SIZE) =
      natListMax (specBoundaryEnds s (cur + MAX_CHUNK_SIZE - breakWindow)
        (cur + MAX_CHUNK_SIZE - 1)) := by
  have hlomax : max cur (cur + MAX_CHUNK_SIZE - breakWindow) =
      cur + MAX_CHUNK_SIZE - breakWindow := by
    simp only [MAX_CHUNK_SIZE, breakWindow]
    omega
  unfold bestBreakAt
  rw [hlomax]
  cases hf : bestBreakFold s (cur + MAX_CHUNK_SIZE - breakWindow)
      (cur + MAX_CHUNK_SIZE - 1) sentenceEndings none with
  | some m =>
    obtain ⟨hmem, _, hub⟩ := bestBreakFold_some_spec s _ _ sentenceEndings none m hf
    rcases hmem with h1 | ⟨pat, hpat, pt, hpt, hlo2, rfl⟩
    · simp at h1
    · obtain ⟨hpre, hle, _⟩ := lastIndexOfLe_some hpt
      symm
      apply natListMax_eq_of_mem_ub
      · exact mem_specBoundaryEnds.mpr ⟨pat, pt, hpat, hlo2, hle, hpre, rfl⟩
      · intro x hx
        rcases mem_specBoundaryEnds.mp hx with ⟨p2, pt2, hp2, hlo3, hhi3, hpre3, rfl⟩
        cases hli2 : lastIndexOfLe s p2 (cur + MAX_CHUNK_SIZE - 1) with
        | none => exact absurd hpre3 (lastIndexOfLe_none hli2 pt2 hhi3)
        | some pt3 =>
          obtain ⟨_, _, hmaxi2⟩ := lastIndexOfLe_some hli2
          have h23 : pt2 ≤ pt3 := hmaxi2 pt2 hhi3 hpre3
          have hc : Cand s (cur + MAX_CHUNK_SIZE - breakWindow)
              (cur + MAX_CHUNK_SIZE - 1) p2 (pt3 + p2.length) :=
            ⟨pt3, hli2, by omega, rfl⟩
          have := hub p2 hp2 _ hc
          omega
  | none =>
    obtain ⟨_, hnone⟩ := bestBreakFold_none_spec s _ _ sentenceEndings none hf
    have hempty : specBoundaryEnds s (cur + MAX_CHUNK_SIZE - breakWindow)
        (cur + MAX_CHUNK_SIZE - 1) = [] := by
      rw [List.eq_nil_iff_forall_not_mem]
      intro x hx
      rcases mem_specBoundaryEnds.mp hx with ⟨p2, pt2, hp2, hlo3, hhi3, hpre3, rfl⟩
      cases hli2 : lastIndexOfLe s p2 (cur + MAX_CHUNK_SIZE - 1) with
      | none => exact absurd hpre3 (lastIndexOfLe_none hli2 pt2 hhi3)
      | some pt3 =>
        obtain ⟨_, _, hmaxi2⟩ := lastIndexOfLe_some hli2
        have h23 : pt2 ≤ pt3 := hmaxi2 pt2 hhi3 hpre3
        exact hnone p2 hp2 (pt3 + p2.length) ⟨pt3, hli2, by omega, rfl⟩
    rw [hempty]
    rfl

theorem cutPos_eq_spec {s : List Char} {cur : Nat}
    (h : cur + MAX_CHUNK_SIZE < s.length) :
    cutPos s cur = specCutPos s cur := by
  have hmin : min (cur + MAX_CHUNK_SIZE) s.length = cur + MAX_CHUNK_SIZE :=
    min_eq_left (le_of_lt h)
  unfold cutPos specCutPos
  rw [hmin, if_pos h, bestBreakAt_eq_spec]
  cases hn : natListMax (specBoundaryEnds s (cur + MAX_CHUNK_SIZE - breakWindow)
      (cur + MAX_CHUNK_SIZE - 1)) with
  | none => rfl
  | some b =>
    have hb := natListMax_mem hn
    rcases mem_specBoundaryEnds.mp hb with ⟨pat, pt, hpat, hlo, hhi, hpre, rfl⟩
    have hlen := (sentenceEndings_len pat hpat).1
    have hcur : cur < pt + pat.length := by
      simp only [MAX_CHUNK_SIZE, breakWindow] at hlo
      omega
    show (if cur < pt + pat.length then pt + pat.length
      else cur + MAX_CHUNK_SIZE) = pt + pat.length
    rw [if_pos hcur]

theorem cutPos_lb_ub {s : List Char} {cur : Nat}
    (h : cur + MAX_CHUNK_SIZE < s.length) :
    cur + MAX_CHUNK_SIZE - breakWindow + 1 ≤ cutPos s cur ∧
      cutPos s cur ≤ cur + MAX_CHUNK_SIZE + 1 := by
  rw [cutPos_eq_spec h]
  unfold specCutPos
  cases hn : natListMax (specBoundaryEnds s (cur + MAX_CHUNK_SIZE - breakWindow)
      (cur + MAX_CHUNK_SIZE - 1)) with
  | none =>
    show cur + MAX_CHUNK_SIZE - breakWindow + 1 ≤ cur + MAX_CHUNK_SIZE ∧
      cur + MAX_CHUNK_SIZE ≤ cur + MAX_CHUNK_SIZE + 1
    constructor
    · simp only [MAX_CHUNK_SIZE, breakWindow]
      omega
    · omega
  | some b =>
    have hb := natListMax_mem hn
    rcases mem_specBoundaryEnds.mp hb with ⟨pat, pt, hpat, hlo, hhi, hpre, rfl⟩
    have hlen := sentenceEndings_len pat hpat
    show cur + MAX_CHUNK_SIZE - breakWindow + 1 ≤ pt + pat.length ∧
      pt + pat.length ≤ cur + MAX_CHUNK_SIZE + 1
    constructor
    · exact Nat.add_le_add hlo hlen.1
    · have h2 := hlen.2
      simp only [MAX_CHUNK_SIZE] at hhi ⊢
      omega

theorem cutPos_at_end {s : List Char} {cur : Nat}
    (h : s.length ≤ cur + MAX_CHUNK_SIZE) :
    cutPos s cur = s.length := by
  unfold cutPos
  rw [min_eq_right h]
  simp

theorem cutPos_gt {s : List Char} {cur : Nat} (h : cur < s.length) :
    cur < cutPos s cur := by
  have he : cur < min (cur + MAX_CHUNK_SIZE) s.length := by
    rw [lt_min_iff]
    exact ⟨Nat.lt_add_of_pos_right (by decide), h⟩
  unfold cutPos
  split
  · cases hbb : bestBreakAt s cur (min (cur + MAX_CHUNK_SIZE) s.length) with
    | some b =>
      show cur < if cur < b then b else min (cur + MAX_CHUNK_SIZE) s.length
      by_cases hb : cur < b
      · rw [if_pos hb]
        exact hb
      · rw [if_neg hb]
        exact he
    | none => exact he
  · exact he

theorem chunkFromFuel_nil (s : List Char) :
    ∀ (fuel cur : Nat), s.length ≤ cur → chunkFromFuel s fuel cur = []
  | 0, cur, _ => rfl
  | fuel + 1, cur, h => by
    unfold chunkFromFuel
    rw [if_neg (by omega)]

theorem chunkFromFuel_congr (s : List Char) :
    ∀ (f g cur : Nat), s.length - cur ≤ f → s.length - cur ≤ g →
      chunkFromFuel s f cur = chunkFromFuel s g cur
  | 0, g, cur, hf, _ => by
    rw [chunkFromFuel_nil s 0 cur (by omega), chunkFromFuel_nil s g cur (by omega)]
  | f + 1, 0, cur, _, hg => by
    rw [chunkFromFuel_nil s _ cur (by omega), chunkFromFuel_nil s 0 cur (by omega)]
  | f + 1, g + 1, cur, hf, hg => by
    by_cases h : cur < s.length
    · have hcut := cutPos_gt h
      unfold chunkFromFuel
      rw [if_pos h, if_pos h]
      congr 1
      exact chunkFromFuel_congr s f g (cutPos s cur) (by omega) (by omega)
    · rw [chunkFromFuel_nil s _ cur (by omega), chunkFromFuel_nil s _ cur (by omega)]

theorem chunkFromFuel_succ (s : List Char) (fuel cur : Nat) :
    chunkFromFuel s (fuel + 1) cur =
      if cur < s.length then
        sliceChunk s cur (cutPos s cur) :: chunkFromFuel s fuel (cutPos s cur)
      else [] := rfl

theorem chunksFrom_eq (s : List Char) (cur : Nat) :
    chunksFrom s cur =
      if cur < s.length then
        sliceChunk s cur (cutPos s cur) :: chunksFrom s (cutPos s cur)
      else [] := by
  by_cases h : cur < s.length
  · rw [if_pos h]
    have hcut := cutPos_gt h
    have h1 : s.length - cur = (s.length - cur - 1) + 1 := by omega
    unfold chunksFrom
    rw [h1, chunkFromFuel_succ, if_pos h]
    congr 1
    exact chunkFromFuel_congr s (s.length - cur - 1) (s.length - cutPos s cur)
      (cutPos s cur) (by omega) (by omega)
  · rw [if_neg h]
    unfold chunksFrom
    exact chunkFromFuel_nil s _ cur (by omega)

theorem chunkFromFuel_flatten (s : List Char) :
    ∀ (fuel cur : Nat), s.length - cur ≤ fuel →
      (chunkFromFuel s fuel cur).flatten = s.drop cur
  | 0, cur, h => by
    rw [List.drop_eq_nil_of_le (by omega)]
    rfl
  | fuel + 1, cur, h => by
    unfold chunkFromFuel
    by_cases hc : cur < s.length
    · rw [if_pos hc]
      have hcut := cutPos_gt hc
      have ih := chunkFromFuel_flatten s fuel (cutPos s cur) (by omega)
      rw [List.flatten_cons, ih]
      unfold sliceChunk
      rw [show s.drop (cutPos s cur) =
        (s.drop cur).drop (cutPos s cur - cur) from ?_]
      · exact List.take_append_drop _ _
      · rw [List.drop_drop]
        congr 1
        omega
    · rw [if_neg hc, List.drop_eq_nil_of_le (by omega)]
      rfl

theorem chunkFromFuel_ne_nil (s : List Char) :
    ∀ (fuel cur : Nat), ∀ c ∈ chunkFromFuel s fuel cur, c ≠ []
  | 0, _, c, hc => absurd hc (List.not_mem_nil c)
  | fuel + 1, cur, c, hc => by
    unfold chunkFromFuel at hc
    by_cases h : cur < s.length
    · rw [if_pos h] at hc
      rcases List.mem_cons.mp hc with rfl | hc2
      · unfold sliceChunk
        have hcut := cutPos_gt h
        intro hnil
        rw [List.take_eq_nil_iff] at hnil
        rcases hnil with h1 | h1
        · omega
        · rw [List.drop_eq_nil_iff] at h1
          omega
      · exact chunkFromFuel_ne_nil s fuel (cutPos s cur) c hc2
    · rw [if_neg h] at hc
      exact absurd hc (List.not_mem_nil c)

theorem chunkRun_length_of_250000 {s : List Char} (h : s.length = 250000) :
    (chunkRun s).length = 3 := by
  have h0 : 0 + MAX_CHUNK_SIZE < s.length := by
    simp only [MAX_CHUNK_SIZE]
    omega
  obtain ⟨hlb0, hub0⟩ := cutPos_lb_ub h0
  have h1 : cutPos s 0 + MAX_CHUNK_SIZE < s.length := by
    simp only [MAX_CHUNK_SIZE, breakWindow] at hlb0 hub0 ⊢
    omega
  obtain ⟨hlb1, hub1⟩ := cutPos_lb_ub h1
  have h2 : s.length ≤ cutPos s (cutPos s 0) + MAX_CHUNK_SIZE := by
    simp only [MAX_CHUNK_SIZE, breakWindow] at hlb0 hlb1 ⊢
    omega
  have hend := cutPos_at_end h2
  have hc0lt : cutPos s 0 < s.length := by
    simp only [MAX_CHUNK_SIZE, breakWindow] at hub0
    omega
  have hc1lt : cutPos s (cutPos s 0) < s.length := by
    simp only [MAX_CHUNK_SIZE, breakWindow] at hub0 hub1
    omega
  rw [chunkRun, chunksFrom_eq, if_pos (by omega)]
  rw [chunksFrom_eq, if_pos hc0lt]
  rw [chunksFrom_eq, if_pos hc1lt]
  rw [hend, chunksFrom_eq, if_neg (by omega)]
  rfl

/-! ### Claim C2: chunk round trip -/

/-- Claim C2: for content longer than the chunk threshold, concatenating the
raw chunks produced by the chunking loop, in order, yields exactly the
original content — the chunks' source offsets tile the input with no gaps
and no overlaps (overlap prefixes are injected later, into the prompt
inputs, and are not part of the raw chunks). -/
theorem c2_chunk_round_trip :
    ∀ s : List Char, MAX_CHUNK_SIZE < s.length → (chunkRun s).flatten = s := by
  intro s _
  have h := chunkFromFuel_flatten s (s.length - 0) 0 (le_refl _)
  simpa [chunkRun, chunksFrom] using h

/-- Claim C2 witness: the round trip at a concrete 120001-character input,
which is over the chunk threshold. -/
theorem c2_chunk_round_trip_witness :
    MAX_CHUNK_SIZE < (List.replicate 120001 'a').length ∧
      (chunkRun (List.replicate 120001 'a')).flatten = List.replicate 120001 'a' :=
  ⟨by rw [List.length_replicate]; decide,
    c2_chunk_round_trip _ (by rw [List.length_replicate]; decide)⟩

/-! ### Claim C5: cut positions -/

/-- Claim C5: for every non-final chunk window, the cut position chosen by
the chunker equals the spec-side `specCutPos`: the rightmost end of a
sentence-boundary marker occurrence starting within the 500-character
lookback window ending at the window's right edge, or exactly
`cursor + MAX_CHUNK_SIZE` when no marker occurs there; and any
250000-character input yields exactly 3 chunks. -/
theorem c5_cut_position :
    (∀ (s : List Char) (cur : Nat), cur + MAX_CHUNK_SIZE < s.length →
        cutPos s cur = specCutPos s cur) ∧
      ∀ s : List Char, s.length = 250000 → (chunkRun s).length = 3 :=
  ⟨fun _ _ h => cutPos_eq_spec h, fun _ h => chunkRun_length_of_250000 h⟩

/-- Claim C5 witness: the cut-position characterization and the three-chunk
count at a concrete 250000-character input. -/
theorem c5_cut_position_witness :
    (0 + MAX_CHUNK_SIZE < (List.replicate 250000 'a').length ∧
        cutPos (List.replicate 250000 'a') 0 =
          specCutPos (List.replicate 250000 'a') 0) ∧
      (chunkRun (List.replicate 250000 'a')).length = 3 :=
  ⟨⟨by rw [List.length_replicate]; decide,
      c5_cut_position.1 _ 0 (by rw [List.length_replicate]; decide)⟩,
    c5_cut_position.2 _ (List.length_replicate ..)⟩

/-! ### Claim C10: chunking terminates with non-empty chunks -/

/-- Claim C10: each iteration's cut position strictly exceeds the cursor, so
the chunking loop terminates (the loop is embedded with `s.length` fuel,
which the strictly increasing cursor makes sufficient); consequently every
non-empty input yields at least one chunk and every produced chunk is a
non-empty substring. -/
theorem c10_chunking_terminates :
    (∀ (s : List Char) (cur : Nat), cur < s.length → cur < cutPos s cur) ∧
      ∀ s : List Char, s ≠ [] → chunkRun s ≠ [] ∧ ∀ c ∈ chunkRun s, c ≠ [] := by
  constructor
  · exact fun s cur h => cutPos_gt h
  · intro s hs
    have hlen : 0 < s.length := List.length_pos.mpr hs
    constructor
    · rw [chunkRun, chunksFrom_eq, if_pos hlen]
      simp
    · exact fun c hc => chunkFromFuel_ne_nil s (s.length - 0) 0 c hc

/-- Claim C10 witness: cursor progress and chunk non-emptiness at a concrete
two-character input. -/
theorem c10_chunking_terminates_witness :
    0 < cutPos ['a', 'b'] 0 ∧
      (chunkRun ['a', 'b'] ≠ [] ∧ ∀ c ∈ chunkRun ['a', 'b'], c ≠ []) :=
  ⟨c10_chunking_terminates.1 ['a', 'b'] 0 (by decide),
    c10_chunking_terminates.2 ['a', 'b'] (by decide)⟩

/-! ### URL normalizer lemmas (Claims C4 and C9) -/

theorem head?_append_left {a b : List Char} (h : a ≠ []) :
    (a ++ b).head? = a.head? := by
  cases a with
  | nil => exact absurd rfl h
  | cons x t => rfl

theorem takeWhile_append_all {p : Char → Bool} {a : List Char} (b : List Char)
    (h : a.all p = true) : (a ++ b).takeWhile p = a ++ b.takeWhile p := by
  induction a with
  | nil => simp
  | cons x t ih =>
    rw [List.all_cons, Bool.and_eq_true] at h
    simp [List.takeWhile_cons, h.1, ih h.2]

theorem dropWhile_append_all {p : Char → Bool} {a : List Char} (b : List Char)
    (h : a.all p = true) : (a ++ b).dropWhile p = b.dropWhile p := by
  induction a with
  | nil => simp
  | cons x t ih =>
    rw [List.all_cons, Bool.and_eq_true] at h
    simp [List.dropWhile_cons, h.1, ih h.2]

theorem all_mono {l : List Char} {p q : Char → Bool}
    (himp : ∀ c, p c = true → q c = true) (h : l.all p = true) :
    l.all q = true := by
  rw [List.all_eq_true] at h ⊢
  exact fun x hx => himp x (h x hx)

theorem charlist_all_imp {cs : List Char} {p : Char → Bool}
    (hall : cs.all p = true) {c : Char} (hc : cs.contains c = true) :
    p c = true := by
  have hmem : c ∈ cs := by simpa using hc
  exact List.all_eq_true.mp hall c hmem

theorem hostOk_not_stop {c : Char} (h : hostOk c = true) : notHostStop c = true :=
  charlist_all_imp (by decide) h

theorem pathOk_not_stop {c : Char} (h : pathOk c = true) : notPathStop c = true :=
  charlist_all_imp (by decide) h

theorem queryOk_not_hash {c : Char} (h : queryOk c = true) :
    (!(c = '#')) = true :=
  @charlist_all_imp queryChars (fun c => !(c = '#')) (by decide) c h

theorem option_all_mem {p : List Char → Bool} {o : Option (List Char)}
    (h : o.all p = true) : ∀ x ∈ o, p x = true := by
  cases o with
  | none => intro x hx; simp at hx
  | some a =>
    intro x hx
    rw [Option.mem_def] at hx
    injection hx with hx
    subst hx
    exact h

theorem option_all_of {p : List Char → Bool} {o : Option (List Char)}
    (h : ∀ x ∈ o, p x = true) : o.all p = true := by
  cases o with
  | none => rfl
  | some a => exact h a rfl

theorem takeWhile_ne_nil_head {p : Char → Bool} {l : List Char}
    (h : l.takeWhile p ≠ []) :
    ∃ c, l.head? = some c ∧ p c = true := by
  cases l with
  | nil => simp at h
  | cons x t =>
    rw [List.takeWhile_cons] at h
    by_cases hp : p x = true
    · exact ⟨x, rfl, hp⟩
    · rw [if_neg hp] at h
      exact absurd rfl h

theorem head?_takeWhile_eq {p : Char → Bool} {l : List Char}
    (h : l.takeWhile p ≠ []) : (l.takeWhile p).head? = l.head? := by
  cases l with
  | nil => simp at h
  | cons x t =>
    rw [List.takeWhile_cons] at h ⊢
    by_cases hp : p x = true
    · rw [if_pos hp]
      rfl
    · rw [if_neg hp] at h
      exact absurd rfl h

theorem head_dropWhile_false {p : Char → Bool} {l : List Char} {c : Char}
    (h : (l.dropWhile p).head? = some c) : p c = false := by
  induction l with
  | nil => simp at h
  | cons x t ih =>
    rw [List.dropWhile_cons] at h
    by_cases hp : p x = true
    · rw [if_pos hp] at h
      exact ih h
    · rw [if_neg hp] at h
      injection h with h
      subst h
      exact Bool.not_eq_true _ ▸ Bool.of_not_eq_true hp

theorem stop_char_eq_slash {c : Char} (h1 : notHostStop c = false)
    (h2 : notPathStop c = true) : c = '/' := by
  unfold notHostStop at h1
  unfold notPathStop at h2
  simp at h1 h2
  by_cases h3 : c = '/'
  · exact h3
  · by_cases h4 : c = '?'
    · exact absurd h4 h2.1
    · exact absurd (h1 h3 h4) h2.2

theorem parseAfterScheme_valid {sch rest : List Char} {u : Url}
    (hsch : sch = "http".toList ∨ sch = "https".toList)
    (h : parseAfterScheme sch rest = some u) : ValidUrl u := by
  simp only [parseAfterScheme] at h
  split at h
  case isFalse => exact absurd h (by simp)
  case isTrue hc =>
    injection h with h
    subst h
    simp only [Bool.and_eq_true] at hc
    obtain ⟨⟨⟨⟨hne, hhost⟩, hpath⟩, hq⟩, hf⟩ := hc
    have hne2 : rest.takeWhile notHostStop ≠ [] := by
      intro hnil
      rw [hnil] at hne
      simp at hne
    refine ⟨hsch, hne2, hhost, ?_, ?_, ?_,
      option_all_mem hq, option_all_mem hf⟩
    · show (if ((rest.dropWhile notHostStop).takeWhile notPathStop).isEmpty
        then ['/'] else (rest.dropWhile notHostStop).takeWhile notPathStop) ≠ []
      split
      · simp
      case isFalse hni => simpa using hni
    · show (if ((rest.dropWhile notHostStop).takeWhile notPathStop).isEmpty
        then ['/'] else (rest.dropWhile notHostStop).takeWhile notPathStop).head?
          = some '/'
      split
      · rfl
      case isFalse hni =>
        have hni2 : (rest.dropWhile notHostStop).takeWhile notPathStop ≠ [] := by
          simpa using hni
        obtain ⟨c, hhead, hpc⟩ := takeWhile_ne_nil_head hni2
        have hstop : notHostStop c = false := head_dropWhile_false hhead
        have hcs := stop_char_eq_slash hstop hpc
        subst hcs
        rw [head?_takeWhile_eq hni2, hhead]
    · show (if ((rest.dropWhile notHostStop).takeWhile notPathStop).isEmpty
        then ['/'] else (rest.dropWhile notHostStop).takeWhile notPathStop).all
          pathOk = true
      split
      · decide
      · exact hpath

theorem parseUrl_valid {s : List Char} {u : Url}
    (h : parseUrl s = some u) : ValidUrl u := by
  unfold parseUrl at h
  split at h
  · exact parseAfterScheme_valid (Or.inl rfl) h
  · exact parseAfterScheme_valid (Or.inr rfl) h
  · exact absurd h (by simp)

theorem takeWhile_all_eq {p : Char → Bool} {a : List Char}
    (h : a.all p = true) : a.takeWhile p = a := by
  induction a with
  | nil => rfl
  | cons x t ih =>
    rw [List.all_cons, Bool.and_eq_true] at h
    rw [List.takeWhile_cons, if_pos h.1, ih h.2]

theorem dropWhile_all_eq {p : Char → Bool} {a : List Char}
    (h : a.all p = true) : a.dropWhile p = [] := by
  induction a with
  | nil => rfl
  | cons x t ih =>
    rw [List.all_cons, Bool.and_eq_true] at h
    rw [List.dropWhile_cons, if_pos h.1, ih h.2]

theorem splitQueryFrag_parts {q f : Option (List Char)}
    (hq : ∀ x ∈ q, x.all queryOk = true) :
    splitQueryFrag (queryPart q ++ fragPart f) = (q, f) := by
  cases q with
  | none =>
    cases f with
    | none => rfl
    | some fv => rfl
  | some qv =>
    have hqall : qv.all (fun c => !(c = '#')) = true :=
      all_mono (fun c => queryOk_not_hash) (hq qv rfl)
    show (some ((qv ++ fragPart f).takeWhile fun c => !(c = '#')),
      match (qv ++ fragPart f).dropWhile (fun c => !(c = '#')) with
      | '#' :: f2 => some f2
      | _ => none) = (some qv, f)
    rw [takeWhile_append_all _ hqall, dropWhile_append_all _ hqall]
    cases f with
    | none => simp [fragPart]
    | some fv => simp [fragPart]

theorem parseAfterScheme_serialize {sch host : List Char} {pt : List Char}
    {q f : Option (List Char)}
    (hhne : host ≠ []) (hhost : host.all hostOk = true)
    (hpath : ('/' :: pt).all pathOk = true)
    (hq : ∀ x ∈ q, x.all queryOk = true) (hf : ∀ x ∈ f, x.all fragOk = true) :
    parseAfterScheme sch
        (host ++ (('/' :: pt) ++ (queryPart q ++ fragPart f))) =
      some ⟨sch, host, '/' :: pt, q, f⟩ := by
  have hhostall : host.all notHostStop = true :=
    all_mono (fun c => hostOk_not_stop) hhost
  have hpathall : ('/' :: pt).all notPathStop = true :=
    all_mono (fun c => pathOk_not_stop) hpath
  have hXtw : (queryPart q ++ fragPart f).takeWhile notPathStop = [] := by
    cases q with
    | some qv => rfl
    | none =>
      cases f with
      | some fv => rfl
      | none => rfl
  have hXdw : (queryPart q ++ fragPart f).dropWhile notPathStop =
      queryPart q ++ fragPart f := by
    cases q with
    | some qv => rfl
    | none =>
      cases f with
      | some fv => rfl
      | none => rfl
  have h1 : (host ++ (('/' :: pt) ++ (queryPart q ++ fragPart f))).takeWhile
      notHostStop = host := by
    rw [takeWhile_append_all _ hhostall, List.cons_append, List.takeWhile_cons,
      if_neg (by decide)]
    simp
  have h2 : (host ++ (('/' :: pt) ++ (queryPart q ++ fragPart f))).dropWhile
      notHostStop = ('/' :: pt) ++ (queryPart q ++ fragPart f) := by
    rw [dropWhile_append_all _ hhostall, List.cons_append, List.dropWhile_cons,
      if_neg (by decide)]
  have h3 : ((('/' :: pt) ++ (queryPart q ++ fragPart f))).takeWhile
      notPathStop = '/' :: pt := by
    rw [takeWhile_append_all _ hpathall, hXtw, List.append_nil]
  have h4 : ((('/' :: pt) ++ (queryPart q ++ fragPart f))).dropWhile
      notPathStop = queryPart q ++ fragPart f := by
    rw [dropWhile_append_all _ hpathall, hXdw]
  simp only [parseAfterScheme]
  rw [h1, h2, h3, h4, splitQueryFrag_parts hq]
  have hcond : (!host.isEmpty && host.all hostOk &&
      (('/' :: pt).all pathOk) && ((q, f).1.all fun x => x.all queryOk) &&
      ((q, f).2.all fun x => x.all fragOk)) = true := by
    simp only [Bool.and_eq_true]
    refine ⟨⟨⟨⟨?_, hhost⟩, hpath⟩, option_all_of hq⟩, option_all_of hf⟩
    simpa using hhne
  rw [if_pos hcond]
  simp

theorem parseUrl_serialize {u : Url} (hv : ValidUrl u) :
    parseUrl (serializeUrl u) = some u := by
  obtain ⟨sch, host, path, q, f⟩ := u
  obtain ⟨hsch, hhne, hhost, hpne, hphead, hpath, hq, hf⟩ := hv
  simp only at hsch hhne hhost hpne hphead hpath hq hf
  obtain ⟨pt, rfl⟩ : ∃ pt, path = '/' :: pt := by
    cases path with
    | nil => exact absurd rfl hpne
    | cons c t =>
      have hc : c = '/' := by simpa using hphead
      exact ⟨t, by rw [hc]⟩
  simp only [serializeUrl]
  rcases hsch with h | h <;> subst h
  · rw [show ("http".toList : List Char) = ['h', 't', 't', 'p'] from rfl]
    simp only [List.append_assoc, List.cons_append, List.nil_append]
    exact parseAfterScheme_serialize hhne hhost hpath hq hf
  · rw [show ("https".toList : List Char) = ['h', 't', 't', 'p', 's'] from rfl]
    simp only [List.append_assoc, List.cons_append, List.nil_append]
    exact parseAfterScheme_serialize hhne hhost hpath hq hf

theorem parseUrl_serialize_base {sch host : List Char}
    (hsch : sch = "http".toList ∨ sch = "https".toList)
    (hhne : host ≠ []) (hhost : host.all hostOk = true) :
    parseUrl (sch ++ ([':', '/', '/'] ++ host)) =
      some ⟨sch, host, ['/'], none, none⟩ := by
  have hhostall : host.all notHostStop = true :=
    all_mono (fun c => hostOk_not_stop) hhost
  have hbody : parseAfterScheme sch host = some ⟨sch, host, ['/'], none, none⟩ := by
    simp only [parseAfterScheme]
    rw [takeWhile_all_eq hhostall, dropWhile_all_eq hhostall]
    have hcond : (!host.isEmpty && host.all hostOk &&
        (([] : List Char).all pathOk) &&
        ((splitQueryFrag []).1.all fun x => x.all queryOk) &&
        ((splitQueryFrag []).2.all fun x => x.all fragOk)) = true := by
      simp only [Bool.and_eq_true]
      refine ⟨⟨⟨⟨?_, hhost⟩, rfl⟩, rfl⟩, rfl⟩
      simpa using hhne
    simp only [List.takeWhile_nil, List.dropWhile_nil]
    rw [if_pos hcond]
    rfl
  rcases hsch with h | h <;> subst h
  · rw [show ("http".toList : List Char) = ['h', 't', 't', 'p'] from rfl]
    rw [show ("http".toList : List Char) = ['h', 't', 't', 'p'] from rfl] at hbody
    simp only [List.cons_append, List.nil_append]
    exact hbody
  · rw [show ("https".toList : List Char) = ['h', 't', 't', 'p', 's'] from rfl]
    rw [show ("https".toList : List Char) = ['h', 't', 't', 'p', 's'] from rfl] at hbody
    simp only [List.cons_append, List.nil_append]
    exact hbody

theorem normalizeUrl_eq_self {v : List Char} {u : Url}
    (hp : parseUrl v = some u)
    (h : (serializeUrl { u with frag := none } = v ∧ v.getLast? ≠ some '/') ∨
      serializeUrl { u with frag := none } = v ++ ['/']) :
    normalizeUrl v = v := by
  unfold normalizeUrl
  simp only [hp]
  rcases h with ⟨hs, hne⟩ | hs
  · rw [hs]
    unfold stripSlash
    rw [if_neg hne]
  · rw [hs]
    unfold stripSlash
    rw [List.getLast?_concat, if_pos rfl, List.dropLast_concat]

theorem stripSlash_concat_slash (Y : List Char) : stripSlash (Y ++ ['/']) = Y := by
  unfold stripSlash
  rw [List.getLast?_concat, if_pos rfl, List.dropLast_concat]

theorem stripSlash_concat_ne {Y : List Char} {c : Char} (hc : c ≠ '/') :
    stripSlash (Y ++ [c]) = Y ++ [c] := by
  unfold stripSlash
  rw [List.getLast?_concat, if_neg (fun h => hc (Option.some.inj h))]

theorem all_sublist {l1 l2 : List Char} {p : Char → Bool} (hs : l1.Sublist l2)
    (h : l2.all p = true) : l1.all p = true := by
  rw [List.all_eq_true] at h ⊢
  exact fun x hx => h x (hs.subset hx)

/-! ### Claim C9: the normalizer is total with identity fallback -/

/-- Claim C9: the URL normalizer is a total function (it never throws),
with or without a base URL: whenever URL construction fails
(`parseUrlWithBase` returns `none`, the model of the `catch` branch —
unparsable input with no base, unparsable base, or a relative form outside
the modelled fragment) the input string is returned unchanged, and whenever
construction succeeds the result is the hash-cleared serialization with one
trailing slash stripped.  Moreover the error branch is unreachable for a
syntactically valid absolute URL of the modelled fragment: such an input
parses to the same URL with no base and with any parsable base. -/
theorem c9_normalize_total :
    (∀ (s : List Char) (base : Option (List Char)),
        parseUrlWithBase s base = none → normalizeUrlWithBase s base = s) ∧
      (∀ (s : List Char) (base : Option (List Char)) (u : Url),
          parseUrlWithBase s base = some u →
            normalizeUrlWithBase s base =
              stripSlash (serializeUrl { u with frag := none })) ∧
      (∀ (s : List Char) (u : Url), parseUrl s = some u →
          parseUrlWithBase s none = some u) ∧
      (∀ (s b : List Char) (u ub : Url), parseUrl s = some u →
          parseUrl b = some ub → parseUrlWithBase s (some b) = some u) := by
  refine ⟨?_, ?_, ?_, ?_⟩
  · intro s base h
    simp only [normalizeUrlWithBase, h]
  · intro s base u h
    simp only [normalizeUrlWithBase, h]
  · intro s u h
    exact h
  · intro s b u ub hs hb
    simp only [parseUrlWithBase, hb, hs]

/-- Claim C9 witness: the identity fallback at a valid input with an
unparsable base, the success branch at a fragment-bearing URL with no base,
and the absolute-input cases with no base and with a parsable base. -/
theorem c9_normalize_total_witness :
    normalizeUrlWithBase ("http://example.com/a".toList)
        (some "not a url".toList) = "http://example.com/a".toList ∧
      normalizeUrlWithBase ("http://example.com/a#x".toList) none =
        stripSlash (serializeUrl { Url.mk "http".toList "example.com".toList
          ("/a".toList) none (some "x".toList) with frag := none }) ∧
      parseUrlWithBase ("http://example.com/a".toList) none =
        some (Url.mk "http".toList "example.com".toList "/a".toList
          none none) ∧
      parseUrlWithBase ("http://example.com/a".toList)
          (some "http://example.com".toList) =
        some (Url.mk "http".toList "example.com".toList "/a".toList
          none none) :=
  ⟨c9_normalize_total.1 _ _ (by decide),
    c9_normalize_total.2.1 _ _ _ (by decide),
    c9_normalize_total.2.2.1 _ _ (by decide),
    c9_normalize_total.2.2.2 _ _ _
      (Url.mk "http".toList "example.com".toList "/".toList none none)
      (by decide) (by decide)⟩

/-! ### Claim C4: normalization idempotency -/

/-- Claim C4 counterexample: normalization is not idempotent.  For
`http://example.com//` — which `new URL` parses and serializes unchanged —
one application strips only the last of the two trailing slashes, giving
`http://example.com/`, and a second application strips another, giving
`http://example.com`. -/
theorem c4_normalize_counterexample :
    normalizeUrl (normalizeUrl ("http://example.com//".toList)) ≠
      normalizeUrl ("http://example.com//".toList) := by decide

/-- Claim C4 (amended): normalization is idempotent except when the
normalized URL still ends with a slash (which happens exactly when the
serialized URL ends with two or more slashes, since only one is stripped
per application): for every input string, either the normalized form still
ends with `'/'`, or normalizing twice equals normalizing once. -/
theorem c4_normalize_amended :
    ∀ s : List Char, (normalizeUrl s).getLast? = some '/' ∨
      normalizeUrl (normalizeUrl s) = normalizeUrl s := by
  intro s
  by_cases hlast : (normalizeUrl s).getLast? = some '/'
  · exact Or.inl hlast
  refine Or.inr ?_
  cases hp : parseUrl s with
  | none =>
    have h1 : normalizeUrl s = s := by simp only [normalizeUrl, hp]
    rw [h1]
    exact h1
  | some u =>
    have hv := parseUrl_valid hp
    obtain ⟨sch, host, path, q, f⟩ := u
    obtain ⟨hsch, hhne, hhost, hpne, hphead, hpath, hq, hf⟩ := hv
    simp only at hsch hhne hhost hpne hphead hpath hq hf
    obtain ⟨pt, rfl⟩ : ∃ pt, path = '/' :: pt := by
      cases path with
      | nil => exact absurd rfl hpne
      | cons c t =>
        have hc : c = '/' := by simpa using hphead
        exact ⟨t, by rw [hc]⟩
    have h1 : normalizeUrl s =
        stripSlash (serializeUrl ⟨sch, host, '/' :: pt, q, none⟩) := by
      simp only [normalizeUrl, hp]
    rw [h1] at hlast ⊢
    clear h1 hp hf
    cases q with
    | none =>
      rcases List.eq_nil_or_concat pt with rfl | ⟨p1, c, rfl⟩
      · -- path = ['/']; the serialization ends in exactly one slash
        have hX : serializeUrl ⟨sch, host, ['/'], none, none⟩ =
            (sch ++ ([':', '/', '/'] ++ host)) ++ ['/'] := by
          simp [serializeUrl, queryPart, fragPart]
        rw [hX, stripSlash_concat_slash]
        refine normalizeUrl_eq_self (parseUrl_serialize_base hsch hhne hhost)
          (Or.inr ?_)
        simp [serializeUrl, queryPart, fragPart]
      · rw [List.concat_eq_append] at *
        by_cases hc : c = '/'
        · subst hc
          -- path ends in '/': stripping gives the same URL with path '/'::p1
          have hX : serializeUrl ⟨sch, host, '/' :: (p1 ++ ['/']), none, none⟩ =
              serializeUrl ⟨sch, host, '/' :: p1, none, none⟩ ++ ['/'] := by
            simp [serializeUrl, queryPart, fragPart]
          rw [hX, stripSlash_concat_slash] at hlast ⊢
          have hvalid : ValidUrl ⟨sch, host, '/' :: p1, none, none⟩ := by
            refine ⟨hsch, hhne, hhost, by simp, rfl, ?_, ?_, ?_⟩
            · exact all_sublist
                (List.Sublist.cons₂ _ (List.sublist_append_left p1 ['/'])) hpath
            · intro x hx
              simp at hx
            · intro x hx
              simp at hx
          exact normalizeUrl_eq_self (parseUrl_serialize hvalid)
            (Or.inl ⟨rfl, hlast⟩)
        · -- path ends in a non-slash: nothing is stripped
          have hX : serializeUrl ⟨sch, host, '/' :: (p1 ++ [c]), none, none⟩ =
              (sch ++ ([':', '/', '/'] ++ (host ++ ('/' :: p1)))) ++ [c] := by
            simp [serializeUrl, queryPart, fragPart]
          rw [hX, stripSlash_concat_ne hc] at hlast ⊢
          rw [← hX] at hlast ⊢
          have hvalid : ValidUrl ⟨sch, host, '/' :: (p1 ++ [c]), none, none⟩ := by
            refine ⟨hsch, hhne, hhost, by simp, rfl, hpath, ?_, ?_⟩
            · intro x hx
              simp at hx
            · intro x hx
              simp at hx
          exact normalizeUrl_eq_self (parseUrl_serialize hvalid)
            (Or.inl ⟨rfl, hlast⟩)
    | some qv =>
      rcases List.eq_nil_or_concat qv with rfl | ⟨q1, c, rfl⟩
      · -- the query is empty: the URL ends in '?', nothing is stripped
        have hX : serializeUrl ⟨sch, host, '/' :: pt, some [], none⟩ =
            (sch ++ ([':', '/', '/'] ++ (host ++ ('/' :: pt)))) ++ ['?'] := by
          simp [serializeUrl, queryPart, fragPart]
        rw [hX, stripSlash_concat_ne (by decide)] at hlast ⊢
        rw [← hX] at hlast ⊢
        have hvalid : ValidUrl ⟨sch, host, '/' :: pt, some [], none⟩ := by
          refine ⟨hsch, hhne, hhost, by simp, rfl, hpath, ?_, ?_⟩
          · intro x hx
            rw [Option.mem_def] at hx
            injection hx with hx
            subst hx
            rfl
          · intro x hx
            simp at hx
        exact normalizeUrl_eq_self (parseUrl_serialize hvalid)
          (Or.inl ⟨rfl, hlast⟩)
      · rw [List.concat_eq_append] at *
        by_cases hc : c = '/'
        · subst hc
          -- the query ends in '/': stripping removes it from the query
          have hX : serializeUrl ⟨sch, host, '/' :: pt, some (q1 ++ ['/']), none⟩ =
              serializeUrl ⟨sch, host, '/' :: pt, some q1, none⟩ ++ ['/'] := by
            simp [serializeUrl, queryPart, fragPart]
          rw [hX, stripSlash_concat_slash] at hlast ⊢
          have hvalid : ValidUrl ⟨sch, host, '/' :: pt, some q1, none⟩ := by
            refine ⟨hsch, hhne, hhost, by simp, rfl, hpath, ?_, ?_⟩
            · intro x hx
              rw [Option.mem_def] at hx
              injection hx with hx
              subst hx
              exact all_sublist (List.sublist_append_left q1 ['/']) (hq _ rfl)
            · intro x hx
              simp at hx
          exact normalizeUrl_eq_self (parseUrl_serialize hvalid)
            (Or.inl ⟨rfl, hlast⟩)
        · -- the query ends in a non-slash: nothing is stripped
          have hX : serializeUrl ⟨sch, host, '/' :: pt, some (q1 ++ [c]), none⟩ =
              (sch ++ ([':', '/', '/'] ++ (host ++ (('/' :: pt) ++
                ('?' :: q1))))) ++ [c] := by
            simp [serializeUrl, queryPart, fragPart]
          rw [hX, stripSlash_concat_ne hc] at hlast ⊢
          rw [← hX] at hlast ⊢
          have hvalid : ValidUrl ⟨sch, host, '/' :: pt, some (q1 ++ [c]), none⟩ := by
            refine ⟨hsch, hhne, hhost, by simp, rfl, hpath, ?_, ?_⟩
            · intro x hx
              rw [Option.mem_def] at hx
              injection hx with hx
              subst hx
              exact hq _ rfl
            · intro x hx
              simp at hx
          exact normalizeUrl_eq_self (parseUrl_serialize hvalid)
            (Or.inl ⟨rfl, hlast⟩)

end LlmsTxt
